import Mathlib

/-
Verification of the question-bank core of the amateur-radio exam trainer
(src/TK/main.py): the record parser (QuestionBank.load_from_file and
QuestionBank._parse_question) and the search engine (QuestionBank._fuzzy_match,
search_by_keyword, search_by_chapter, search_by_id).

Strings are embedded as `List Char`.  The regular expressions of the source are
embedded by structural recursion that reproduces their scanning behaviour:
  - `re.findall(r'\[J\](.*?)(?=\[J\]|$)', content, re.DOTALL)` is `findallJ`;
  - `re.search(r'\[X\]([^\n]+)', text)` is `tagSearch X`.
The filesystem (os.path.exists) is a parameter `fs : List Char → Bool`;
os.path.abspath is modelled as the identity (paths are taken as given).
-/

/-- Boolean test: the first list is a leading segment of the second. -/
def leads : List Char → List Char → Bool
  | [], _ => true
  | _ :: _, [] => false
  | a :: as, b :: bs => a == b && leads as bs

/-- Boolean test: `p` occurs as a contiguous segment of `l`
(Python's substring operator `in`). -/
def containsSeq (p : List Char) : List Char → Bool
  | [] => leads p []
  | l@(_ :: t) => leads p l || containsSeq p t

/-- The record boundary marker of the bank format. -/
def JTAG : List Char := ['[', 'J', ']']

/-- Python whitespace as removed by `str.strip()`. -/
def isSpace (c : Char) : Bool :=
  c = ' ' || c = '\t' || c = '\n' || c = '\r' || c = Char.ofNat 11 || c = Char.ofNat 12

/-- `str.strip()`: remove leading and trailing whitespace. -/
def pyStrip (l : List Char) : List Char :=
  ((l.dropWhile isSpace).reverse.dropWhile isSpace).reverse

/-- Scanner for `re.findall(r'\[J\](.*?)(?=\[J\]|$)', content, re.DOTALL)`:
returns (text before the first `[J]`, the list of captures, one per `[J]`
occurrence, each running to the next `[J]` or the end). -/
def splitJAux : List Char → List Char × List (List Char)
  | [] => ([], [])
  | c :: rest =>
      let p := splitJAux rest
      if leads JTAG (c :: rest) then ([], p.1.drop 2 :: p.2)
      else (c :: p.1, p.2)

/-- The lazy capture before `$` stops before a single newline that ends the
input, so the final chunk loses one trailing newline. -/
def stripNL (l : List Char) : List Char :=
  if l.getLast? = some '\n' then l.dropLast else l

/-- Apply `f` to the last element of a list, if any. -/
def modifyLast (f : List Char → List Char) : List (List Char) → List (List Char)
  | [] => []
  | [a] => [f a]
  | a :: rest => a :: modifyLast f rest

/-- The chunk list produced by the findall split in `load_from_file`
(src/TK/main.py lines 63-65). -/
def findallJ (content : List Char) : List (List Char) :=
  modifyLast stripNL (splitJAux content).2

/-- Does the pattern `\[x\]([^\n]+)` match at the head of `l`?  It does when
the first three characters are the tag and a fourth, non-newline character
follows. -/
def isTagHere (x : Char) (l : List Char) : Bool :=
  leads ['[', x, ']'] l && ((l.drop 3).headD '\n' != '\n')

/-- `re.search(r'\[x\]([^\n]+)', text)`: the capture of the first match, i.e.
the rest of the line after the first occurrence of `[x]` that is followed by at
least one non-newline character. -/
def tagSearch (x : Char) : List Char → Option (List Char)
  | [] => none
  | c :: rest =>
      if isTagHere x (c :: rest) then
        some (((c :: rest).drop 3).takeWhile (fun ch => ch ≠ '\n'))
      else tagSearch x rest

/-- A scalar field of `_parse_question`: the stripped capture, or `""` when the
tag is absent (the attribute keeps its default). -/
def getScalar (x : Char) (text : List Char) : List Char :=
  match tagSearch x text with
  | none => []
  | some v => pyStrip v

/-- The record type of the source (class Question, src/TK/main.py lines 18-30). -/
structure Question where
  j_id : List Char
  p_id : List Char
  i_id : List Char
  question : List Char
  answer : List Char
  options : List (Char × List Char)
  image_path : Option (List Char)
deriving DecidableEq

/-- os.path.join for a directory and a file name. -/
def pathJoin (dir name : List Char) : List Char :=
  if leads ['/'] name then name
  else if dir.isEmpty then name
  else if dir.getLast? = some '/' then dir ++ name
  else dir ++ '/' :: name

/-- os.path.splitext(p)[0]: drop the extension, where the extension starts at
the last dot of the basename provided a non-dot character precedes it. -/
def splitextRoot (p : List Char) : List Char :=
  match p.reverse.dropWhile (fun c => c ≠ '.' && c ≠ '/') with
  | '.' :: restRev =>
      if (restRev.takeWhile (fun c => c ≠ '/')).any (fun c => c ≠ '.') then restRev.reverse
      else p
  | _ => p

/-- The alternative extensions tried by `_parse_question`, in source order
(src/TK/main.py line 135). -/
def extList : List (List Char) :=
  [".jpg".toList, ".png".toList, ".jpeg".toList,
   ".JPG".toList, ".PNG".toList, ".JPEG".toList]

/-- Image resolution of `_parse_question` (src/TK/main.py lines 124-147):
try the joined raw name; if it does not exist, try the stripped base name with
each alternative extension, first existing wins; `none` when nothing exists. -/
def imgResolve (fs : List Char → Bool) (photo_dir fname : List Char) : Option (List Char) :=
  let cand := pathJoin photo_dir fname
  let final :=
    if fs cand then cand
    else ((extList.map (fun e => pathJoin photo_dir (splitextRoot fname ++ e))).find? fs).getD cand
  if fs final then some final else none

/-- `QuestionBank._parse_question` (src/TK/main.py lines 86-155). -/
def parse_question (fs : List Char → Bool) (photo_dir : List Char) (text : List Char) :
    Option Question :=
  let q_question := getScalar 'Q' text
  let image_path : Option (List Char) :=
    match tagSearch 'F' text with
    | none => none
    | some v =>
        if photo_dir.isEmpty then none
        else imgResolve fs photo_dir (pyStrip v)
  if q_question.isEmpty then none
  else some {
    j_id := getScalar 'J' text
    p_id := getScalar 'P' text
    i_id := getScalar 'I' text
    question := q_question
    answer := getScalar 'T' text
    options := ['A', 'B', 'C', 'D'].filterMap
      (fun o => (tagSearch o text).map (fun v => (o, pyStrip v)))
    image_path := image_path }

/-- The question list produced from a file content by `load_from_file`
(src/TK/main.py lines 63-71). -/
def questionsOf (fs : List Char → Bool) (photo_dir content : List Char) : List Question :=
  (findallJ content).filterMap (parse_question fs photo_dir)

/-- `QuestionBank.load_from_file` (src/TK/main.py lines 39-84), as a state
transformer on the stored question list.  `file = none` models an I/O error:
the exception is raised before `self.questions = []` runs, so the previous
list survives; otherwise the list is replaced by the parse result and the
returned flag is whether at least one Question was produced. -/
def load_from_file (prev : List Question) (fs : List Char → Bool) (photo_dir : List Char)
    (file : Option (List Char)) : Bool × List Question :=
  match file with
  | none => (false, prev)
  | some content =>
      let qs := questionsOf fs photo_dir content
      (!qs.isEmpty, qs)

/-- ASCII lower-casing, as `str.lower` acts on the ASCII inputs considered. -/
def asciiLower (c : Char) : Char :=
  if 'A' ≤ c && c ≤ 'Z' then Char.ofNat (c.toNat + 32) else c

/-- The confusable-character normalization of `_fuzzy_match`
(src/TK/main.py lines 169-183). -/
def normalize_char (c : Char) : Char :=
  let cl := asciiLower c
  if cl = 'l' || cl = 'i' || cl = '1' then 'i'
  else if cl = 'o' || cl = '0' then '0'
  else cl

/-- `QuestionBank._fuzzy_match` (src/TK/main.py lines 157-193). -/
def fuzzy_match (pat text : List Char) : Bool :=
  if pat.isEmpty || text.isEmpty then false
  else if containsSeq (pat.map asciiLower) (text.map asciiLower) then true
  else containsSeq (pat.map normalize_char) (text.map normalize_char)

/-- The per-record test of `search_by_keyword` (src/TK/main.py lines 203-206). -/
def keywordPred (kw : List Char) (q : Question) : Bool :=
  fuzzy_match kw q.question || fuzzy_match kw q.j_id || fuzzy_match kw q.p_id
    || q.options.any (fun p => fuzzy_match kw p.2)

/-- `QuestionBank.search_by_keyword` (src/TK/main.py lines 195-208). -/
def search_by_keyword (questions : List Question) (keyword : List Char) : List Question :=
  if keyword.isEmpty then questions
  else questions.filter (keywordPred (pyStrip keyword))

/-- `QuestionBank.search_by_chapter` (src/TK/main.py lines 210-220). -/
def search_by_chapter (questions : List Question) (chapter : List Char) : List Question :=
  if chapter.isEmpty then questions
  else questions.filter (fun q => fuzzy_match (pyStrip chapter) q.p_id)

/-- `QuestionBank.search_by_id` (src/TK/main.py lines 222-232). -/
def search_by_id (questions : List Question) (question_id : List Char) : List Question :=
  if question_id.isEmpty then questions
  else questions.filter (fun q => fuzzy_match (pyStrip question_id) q.i_id)

/- Spec-side definitions.  Each follows the wording of spec.md (or of an
amended claim) rather than the source, and exists to be compared with the
source-derived definitions above. -/

/-- Modelled from the spec: `fuzzyMatch` is false on an empty argument, true on
case-insensitive containment, and otherwise true exactly when the normalized
pattern is contained in the normalized text. -/
def fuzzyMatchSpec (pat text : List Char) : Bool :=
  if pat.isEmpty || text.isEmpty then false
  else
    containsSeq (pat.map asciiLower) (text.map asciiLower) ||
      containsSeq (pat.map normalize_char) (text.map normalize_char)

/-- Split a text into its lines (boundaries at each newline). -/
def splitLines : List Char → List (List Char)
  | [] => [[]]
  | c :: rest =>
      let r := splitLines rest
      if c = '\n' then [] :: r else (c :: r.headD []) :: r.tail

/-- Modelled from the spec: the number of lines of the content that begin with
the record marker, which the claimed splitting rule would make one chunk each. -/
def linesStartJ (content : List Char) : Nat :=
  ((splitLines content).filter (fun ln => leads JTAG ln)).length

/-- Modelled from the spec: extract a field from the first line of the form
`[x]<rest-of-line>`, the value being the rest of that line trimmed. -/
def specLineTag (x : Char) (chunk : List Char) : Option (List Char) :=
  ((splitLines chunk).find? (fun ln => leads ['[', x, ']'] ln)).map
    (fun ln => pyStrip (ln.drop 3))

/-- Modelled from the amended claim: the value of tag `x` comes from the first
position of the chunk at which `[x]` is followed by a non-newline character;
the value is the run of non-newline characters after the tag. -/
def tagValueAmended (x : Char) (l : List Char) : Option (List Char) :=
  ((List.range l.length).find? (fun i => isTagHere x (l.drop i))).map
    (fun i => (l.drop (i + 3)).takeWhile (fun ch => ch ≠ '\n'))

/-- Concatenation of record bodies, each preceded by the `[J]` marker. -/
def joinJ : List (List Char) → List Char
  | [] => []
  | b :: rest => JTAG ++ b ++ joinJ rest

/-- The candidate image paths in the order the source tries them: the joined
raw name first, then the base name with each alternative extension. -/
def imgCandidates (photo_dir fname : List Char) : List (List Char) :=
  pathJoin photo_dir fname ::
    extList.map (fun e => pathJoin photo_dir (splitextRoot fname ++ e))

/- Concrete data used by the closed theorems. -/

/-- A filesystem on which no path exists. -/
def fs0 : List Char → Bool := fun _ => false

/-- The single-record scenario text of the spec. -/
def c1Content : List Char :=
  "[J]Q001\n[P]1.2.1\n[I]MC\n[Q]What is X?\n[A]OptA\n[B]OptB\n[T]A\n".toList

/-- The Question the source actually produces from `c1Content`: every field as
the scenario claims except `j_id`, which comes out empty. -/
def q1val : Question :=
  { j_id := []
    p_id := "1.2.1".toList
    i_id := "MC".toList
    question := "What is X?".toList
    answer := ['A']
    options := [('A', "OptA".toList), ('B', "OptB".toList)]
    image_path := none }

/-- A record whose only populated field is a one-character question body. -/
def qX : Question :=
  { j_id := [], p_id := [], i_id := [], question := ['x'], answer := [],
    options := [], image_path := none }

/-- A record with chapter code `p`. -/
def mkChapterQ (p : List Char) : Question :=
  { j_id := [], p_id := p, i_id := [], question := ['q'], answer := [],
    options := [], image_path := none }

/-- Records covering the chapter codes of the substring-semantics scenario. -/
def chapterDemo : List Question :=
  [mkChapterQ ("1.2".toList), mkChapterQ ("1.2.3".toList), mkChapterQ ("1.20".toList),
   mkChapterQ ("21.2".toList), mkChapterQ ("3.4".toList)]

/-- A content with one `[J]`-headed line whose question body contains a second,
mid-line `[J]` occurrence. -/
def c5Content : List Char := "[J]A\n[Q]x [J]B\n[Q]y\n".toList

/-- A chunk whose first `[P]` occurrence has an empty rest-of-line and whose
second occurrence sits mid-line. -/
def c6chunk : List Char := "zz[P]\nyy [P] 7 \n[Q]q".toList

/-- A chunk with a `[Q]` tag and an `[F]` tag naming a missing image. -/
def c9chunk : List Char := "n1\n[Q]pic question\n[F]img1.bmp".toList

/- Helper lemmas about the scanning primitives. -/

theorem leads_of_take (p : List Char) : ∀ (l : List Char) (n : Nat),
    leads p (l.take n) = true → leads p l = true := by
  induction p with
  | nil => intro l n _; rfl
  | cons a as ih =>
      intro l n h
      cases n with
      | zero => simp [leads] at h
      | succ n =>
          cases l with
          | nil => simp [leads] at h
          | cons b bs =>
              rw [List.take_succ_cons] at h
              simp only [leads, Bool.and_eq_true] at h ⊢
              exact ⟨h.1, ih bs n h.2⟩

theorem containsSeq_of_drop (q : List Char) : ∀ (n : Nat) (l : List Char),
    containsSeq q (l.drop n) = true → containsSeq q l = true := by
  intro n
  induction n with
  | zero => intro l h; simpa using h
  | succ n ih =>
      intro l h
      cases l with
      | nil => simpa using h
      | cons c t =>
          rw [List.drop_succ_cons] at h
          have ht := ih t h
          simp only [containsSeq, Bool.or_eq_true]
          exact Or.inr ht

theorem containsSeq_of_take (q : List Char) : ∀ (l : List Char) (n : Nat),
    containsSeq q (l.take n) = true → containsSeq q l = true := by
  intro l
  induction l with
  | nil => intro n h; simpa using h
  | cons c t ih =>
      intro n h
      cases n with
      | zero =>
          cases q with
          | nil => simp [containsSeq, leads]
          | cons a as => simp [containsSeq, leads] at h
      | succ n =>
          rw [List.take_succ_cons] at h
          simp only [containsSeq, Bool.or_eq_true] at h ⊢
          rcases h with h | h
          · exact Or.inl (leads_of_take q (c :: t) (n + 1)
              (by rw [List.take_succ_cons]; exact h))
          · exact Or.inr (ih n h)

theorem splitJAux_take : ∀ l : List Char, ∃ n, (splitJAux l).1 = l.take n := by
  intro l
  induction l with
  | nil => exact ⟨0, rfl⟩
  | cons c rest ih =>
      by_cases h : leads JTAG (c :: rest) = true
      · exact ⟨0, by simp [splitJAux, h]⟩
      · obtain ⟨n, hn⟩ := ih
        refine ⟨n + 1, ?_⟩
        simp only [Bool.not_eq_true] at h
        simp [splitJAux, h, hn, List.take_succ_cons]

theorem splitJAux_noJ : ∀ l : List Char,
    containsSeq JTAG (splitJAux l).1 = false ∧
      ∀ c ∈ (splitJAux l).2, containsSeq JTAG c = false := by
  intro l
  induction l with
  | nil => exact ⟨by decide, by simp [splitJAux]⟩
  | cons c rest ih =>
      obtain ⟨ih1, ih2⟩ := ih
      by_cases h : leads JTAG (c :: rest) = true
      · refine ⟨?_, ?_⟩
        · have e : (splitJAux (c :: rest)).1 = [] := by simp [splitJAux, h]
          rw [e]; decide
        · intro d hd
          have e : (splitJAux (c :: rest)).2
              = ((splitJAux rest).1.drop 2) :: (splitJAux rest).2 := by
            simp [splitJAux, h]
          rw [e] at hd
          rcases List.mem_cons.mp hd with rfl | hd
          · cases hc : containsSeq JTAG ((splitJAux rest).1.drop 2) with
            | false => rfl
            | true =>
                have := containsSeq_of_drop JTAG 2 _ hc
                rw [ih1] at this
                exact absurd this (by decide)
          · exact ih2 d hd
      · have hb : leads JTAG (c :: rest) = false := by
          simpa using h
        have e1 : (splitJAux (c :: rest)).1 = c :: (splitJAux rest).1 := by
          simp [splitJAux, hb]
        have e2 : (splitJAux (c :: rest)).2 = (splitJAux rest).2 := by
          simp [splitJAux, hb]
        refine ⟨?_, ?_⟩
        · rw [e1]
          have hlead : leads JTAG (c :: (splitJAux rest).1) = false := by
            cases hl : leads JTAG (c :: (splitJAux rest).1) with
            | false => rfl
            | true =>
                obtain ⟨n, hn⟩ := splitJAux_take rest
                rw [hn] at hl
                have : leads JTAG (c :: rest) = true :=
                  leads_of_take JTAG (c :: rest) (n + 1)
                    (by rw [List.take_succ_cons]; exact hl)
                rw [hb] at this
                exact absurd this (by decide)
          simp [containsSeq, hlead, ih1]
        · rw [e2]; exact ih2

theorem containsSeq_stripNL (l : List Char) (h : containsSeq JTAG l = false) :
    containsSeq JTAG (stripNL l) = false := by
  unfold stripNL
  split
  · cases hc : containsSeq JTAG l.dropLast with
    | false => rfl
    | true =>
        rw [List.dropLast_eq_take] at hc
        have := containsSeq_of_take JTAG l (l.length - 1) hc
        rw [h] at this
        exact absurd this (by decide)
  · exact h

theorem modifyLast_noJ (chs : List (List Char))
    (h : ∀ c ∈ chs, containsSeq JTAG c = false) :
    ∀ c ∈ modifyLast stripNL chs, containsSeq JTAG c = false := by
  induction chs with
  | nil => simp [modifyLast]
  | cons a rest ih =>
      cases rest with
      | nil =>
          intro c hc
          simp only [modifyLast, List.mem_singleton] at hc
          subst hc
          exact containsSeq_stripNL a (h a (by simp))
      | cons b t =>
          intro c hc
          rw [show modifyLast stripNL (a :: b :: t)
              = a :: modifyLast stripNL (b :: t) from rfl] at hc
          rcases List.mem_cons.mp hc with rfl | hc
          · exact h c (by simp)
          · exact ih (fun d hd => h d (List.mem_cons_of_mem a hd)) c hc

theorem findallJ_noJ (l : List Char) :
    ∀ c ∈ findallJ l, containsSeq JTAG c = false := by
  unfold findallJ
  exact modifyLast_noJ (splitJAux l).2 (splitJAux_noJ l).2

theorem isTagHere_leads (x : Char) (l : List Char) (h : isTagHere x l = true) :
    leads ['[', x, ']'] l = true := by
  unfold isTagHere at h
  exact ((Bool.and_eq_true _ _).mp h).1

theorem tagSearch_none_of_noJ : ∀ l : List Char,
    containsSeq JTAG l = false → tagSearch 'J' l = none := by
  intro l
  induction l with
  | nil => intro _; rfl
  | cons c rest ih =>
      intro h
      rw [show containsSeq JTAG (c :: rest)
          = (leads JTAG (c :: rest) || containsSeq JTAG rest) from rfl] at h
      rw [Bool.or_eq_false_iff] at h
      have hguard : isTagHere 'J' (c :: rest) = false := by
        cases hg : isTagHere 'J' (c :: rest) with
        | false => rfl
        | true =>
            have hl := isTagHere_leads 'J' (c :: rest) hg
            rw [show (['[', 'J', ']'] : List Char) = JTAG from rfl, h.1] at hl
            exact absurd hl (by decide)
      simp [tagSearch, hguard, ih h.2]

theorem splitJAux_nil_of_noJ : ∀ l : List Char,
    containsSeq JTAG l = false → splitJAux l = (l, []) := by
  intro l
  induction l with
  | nil => intro _; rfl
  | cons c rest ih =>
      intro h
      rw [show containsSeq JTAG (c :: rest)
          = (leads JTAG (c :: rest) || containsSeq JTAG rest) from rfl] at h
      rw [Bool.or_eq_false_iff] at h
      simp [splitJAux, h.1, ih h.2]

theorem splitJAux_pre (r : List Char) : ∀ pre : List Char,
    containsSeq JTAG pre = false →
      splitJAux (pre ++ JTAG ++ r) = (pre, (splitJAux r).1 :: (splitJAux r).2) := by
  intro pre
  induction pre with
  | nil =>
      intro _
      show splitJAux ('[' :: 'J' :: ']' :: r) = _
      simp [splitJAux, leads, JTAG]
  | cons c pre ih =>
      intro h
      rw [show containsSeq JTAG (c :: pre)
          = (leads JTAG (c :: pre) || containsSeq JTAG pre) from rfl] at h
      rw [Bool.or_eq_false_iff] at h
      have hguard : leads JTAG (c :: (pre ++ JTAG ++ r)) = false := by
        cases pre with
        | nil => simp [leads, JTAG]
        | cons y pre2 =>
            cases pre2 with
            | nil => simp [leads, JTAG]
            | cons z pre3 =>
                have e : leads JTAG (c :: ((y :: z :: pre3) ++ JTAG ++ r))
                    = leads JTAG (c :: y :: z :: pre3) := by
                  simp [leads, JTAG]
                rw [e]
                exact h.1
      have hguard2 : leads JTAG (c :: (pre ++ (JTAG ++ r))) = false := by
        rw [← List.append_assoc]
        exact hguard
      have e2 : splitJAux (c :: (pre ++ JTAG ++ r))
          = (c :: (splitJAux (pre ++ JTAG ++ r)).1, (splitJAux (pre ++ JTAG ++ r)).2) := by
        simp [splitJAux, hguard, hguard2]
      show splitJAux (c :: (pre ++ JTAG ++ r)) = _
      rw [e2, ih h.2]

theorem splitJ_spec : ∀ (bodies : List (List Char)) (pre : List Char),
    containsSeq JTAG pre = false → (∀ b ∈ bodies, containsSeq JTAG b = false) →
      splitJAux (pre ++ joinJ bodies) = (pre, bodies) := by
  intro bodies
  induction bodies with
  | nil =>
      intro pre h1 _
      simpa [joinJ] using splitJAux_nil_of_noJ pre h1
  | cons b rest ih =>
      intro pre h1 h2
      have hb := ih b (h2 b (List.mem_cons_self b rest))
        (fun x hx => h2 x (List.mem_cons_of_mem b hx))
      have e : pre ++ joinJ (b :: rest) = pre ++ JTAG ++ (b ++ joinJ rest) := by
        simp [joinJ, List.append_assoc]
      rw [e, splitJAux_pre (b ++ joinJ rest) pre h1, hb]

theorem tagSearch_eq_amended (x : Char) : ∀ l : List Char,
    tagSearch x l = tagValueAmended x l := by
  intro l
  induction l with
  | nil => rfl
  | cons c rest ih =>
      by_cases h : isTagHere x (c :: rest) = true
      · have lhs : tagSearch x (c :: rest)
            = some (((c :: rest).drop 3).takeWhile (fun ch => ch ≠ '\n')) := by
          simp [tagSearch, h]
        have rhs : tagValueAmended x (c :: rest)
            = some (((c :: rest).drop 3).takeWhile (fun ch => ch ≠ '\n')) := by
          unfold tagValueAmended
          rw [List.length_cons, List.range_succ_eq_map,
            List.find?_cons_of_pos _ (by simpa using h)]
          simp
        rw [lhs, rhs]
      · have lhs : tagSearch x (c :: rest) = tagSearch x rest := by
          simp [tagSearch, h]
        rw [lhs, ih]
        unfold tagValueAmended
        rw [List.length_cons, List.range_succ_eq_map,
          List.find?_cons_of_neg _ (by simpa using h), List.find?_map, Option.map_map]
        simp [Function.comp_def, Nat.succ_eq_add_one, List.drop_succ_cons,
          Nat.add_right_comm]

theorem fuzzy_match_nil (t : List Char) : fuzzy_match [] t = false := rfl

theorem keywordPred_nil (q : Question) : keywordPred [] q = false := by
  simp [keywordPred, fuzzy_match_nil]

theorem dropWhile_all_space (l : List Char) (h : l.all isSpace = true) :
    l.dropWhile isSpace = [] := by
  induction l with
  | nil => rfl
  | cons c t ih =>
      rw [List.all_cons, Bool.and_eq_true] at h
      rw [List.dropWhile_cons, if_pos h.1, ih h.2]

theorem stripAllSpace (l : List Char) (h : l.all isSpace = true) : pyStrip l = [] := by
  unfold pyStrip
  rw [dropWhile_all_space l h]
  rfl

theorem parse_question_some (fs : List Char → Bool) (pd text : List Char) (q : Question)
    (h : parse_question fs pd text = some q) :
    q.question = getScalar 'Q' text ∧ (getScalar 'Q' text).isEmpty = false ∧
      q.j_id = getScalar 'J' text ∧
      q.options = ['A', 'B', 'C', 'D'].filterMap
        (fun o => (tagSearch o text).map (fun v => (o, pyStrip v))) := by
  simp only [parse_question] at h
  split at h
  · exact absurd h (by simp)
  · next hne =>
      injection h with h
      subst h
      refine ⟨rfl, ?_, rfl, rfl⟩
      simpa using hne

/- Claim theorems. -/

/-- C1: on the scenario text, `load` produces exactly one Question whose
fields equal the trimmed tag values EXCEPT `displayId`: the split consumes the
`[J]` marker, so `_parse_question` never finds `[J]` inside a chunk and
`j_id` comes out empty instead of the claimed `Q001`.  All other fields match
the claim. -/
theorem C1_displayId_lost :
    questionsOf fs0 [] c1Content = [q1val] ∧
    q1val.j_id = [] ∧
    q1val.p_id = "1.2.1".toList ∧
    q1val.i_id = "MC".toList ∧
    q1val.question = "What is X?".toList ∧
    q1val.answer = ['A'] ∧
    q1val.options = [('A', "OptA".toList), ('B', "OptB".toList)] ∧
    q1val.image_path = none ∧
    ([] : List Char) ≠ "Q001".toList := by decide

/-- C2 counterexample: a failed load of a readable file that produces zero
Questions does NOT leave the previously loaded list untouched: the non-empty
store is replaced with the empty list. -/
theorem C2_load_clobbers_counterexample :
    (load_from_file [q1val] fs0 [] (some [])).1 = false ∧
    (load_from_file [q1val] fs0 [] (some [])).2 = [] ∧
    [q1val] ≠ ([] : List Question) := by decide

/-- C2 (amended): load fails exactly on I/O error or on zero parsed Questions;
on I/O error the previous list survives, but on a readable file the stored
list is always replaced by the parse result, even when it is empty. -/
theorem C2_load_failure_amended (prev : List Question) (fs : List Char → Bool)
    (photo_dir : List Char) (file : Option (List Char)) :
    ((load_from_file prev fs photo_dir file).1 = false ↔
      file = none ∨ ∃ c, file = some c ∧ questionsOf fs photo_dir c = []) ∧
    (file = none → (load_from_file prev fs photo_dir file).2 = prev) ∧
    (∀ c, file = some c →
      (load_from_file prev fs photo_dir file).2 = questionsOf fs photo_dir c) := by
  cases file with
  | none =>
      refine ⟨?_, fun _ => rfl, fun c hc => by cases hc⟩
      simp [load_from_file]
  | some c =>
      refine ⟨?_, ⟨fun h => Option.noConfusion h, fun d hd => ?_⟩⟩
      · simp [load_from_file, List.isEmpty_iff]
      · injection hd with hd
        subst hd
        rfl

/-- C2 witness: the amended theorem applied at an I/O failure on a one-element
store. -/
theorem C2_load_failure_witness :
    (load_from_file [q1val] fs0 [] none).2 = [q1val] :=
  (C2_load_failure_amended [q1val] fs0 [] none).2.1 rfl

/-- C3 counterexample: a whitespace-only (but non-empty) query does not return
the full record list; it is stripped to the empty string, which matches no
record, so all three modes return the empty list. -/
theorem C3_blank_query_counterexample :
    search_by_keyword [q1val] [' '] = [] ∧
    search_by_chapter [q1val] [' '] = [] ∧
    search_by_id [q1val] [' '] = [] ∧
    [q1val] ≠ ([] : List Question) := by decide

/-- C3 (amended): only the EMPTY query returns the full record list unchanged
in each of the three search modes; a whitespace-only non-empty query is
stripped to empty, matches nothing, and returns the empty list. -/
theorem C3_blank_query_amended (qs : List Question) (query : List Char) :
    (query = [] →
      search_by_keyword qs query = qs ∧ search_by_chapter qs query = qs ∧
        search_by_id qs query = qs) ∧
    (query ≠ [] → query.all isSpace = true →
      search_by_keyword qs query = [] ∧ search_by_chapter qs query = [] ∧
        search_by_id qs query = []) := by
  constructor
  · rintro rfl
    exact ⟨rfl, rfl, rfl⟩
  · intro hne hsp
    have hq : query.isEmpty = false := by
      cases query with
      | nil => exact absurd rfl hne
      | cons a t => rfl
    have hstrip : pyStrip query = [] := stripAllSpace query hsp
    refine ⟨?_, ?_, ?_⟩
    · rw [search_by_keyword, if_neg (by simp [hq]), hstrip]
      exact List.filter_eq_nil_iff.mpr (fun a _ => by simp [keywordPred_nil])
    · rw [search_by_chapter, if_neg (by simp [hq]), hstrip]
      exact List.filter_eq_nil_iff.mpr (fun a _ => by simp [fuzzy_match_nil])
    · rw [search_by_id, if_neg (by simp [hq]), hstrip]
      exact List.filter_eq_nil_iff.mpr (fun a _ => by simp [fuzzy_match_nil])

/-- C3 witness: the amended theorem applied to a one-record list with the
empty query and with a single-space query. -/
theorem C3_blank_query_witness :
    search_by_keyword [q1val] [] = [q1val] ∧ search_by_id [q1val] [' '] = [] :=
  ⟨((C3_blank_query_amended [q1val] []).1 rfl).1,
   ((C3_blank_query_amended [q1val] [' ']).2 (by decide) (by decide)).2.2⟩

/-- C4: `_fuzzy_match` agrees with the spec description on every input (false
on an empty argument, true on case-insensitive containment, otherwise true
exactly when the normalized pattern is contained in the normalized text), and
the two concrete examples hold. -/
theorem C4_fuzzy_match_confirmed :
    (∀ pat text : List Char, fuzzy_match pat text = fuzzyMatchSpec pat text) ∧
    fuzzy_match ("l0ve".toList) ("I0VE".toList) = true ∧
    fuzzy_match ("xyz".toList) ("abc".toList) = false := by
  refine ⟨fun pat text => ?_, by decide, by decide⟩
  unfold fuzzy_match fuzzyMatchSpec
  split
  · rfl
  · cases hb : containsSeq (pat.map asciiLower) (text.map asciiLower) with
    | true => simp [hb]
    | false => simp [hb]

/-- C5 counterexample: `c5Content` has exactly one line beginning with `[J]`,
yet the split produces two chunks and `load` two Questions, because the regex
splits at EVERY occurrence of the substring `[J]`, including one in the middle
of a line. -/
theorem C5_split_counterexample :
    linesStartJ c5Content = 1 ∧
    (findallJ c5Content).length = 2 ∧
    (questionsOf fs0 [] c5Content).map Question.question = [['x'], ['y']] := by decide

/-- C5 (amended): the content is split into one chunk per occurrence of the
substring `[J]` (wherever it occurs, not only at line starts); content before
the first occurrence is discarded; the final chunk loses a single trailing
newline; and the Questions of `load` are, in order, the parses of those
chunks. -/
theorem C5_split_amended (fs : List Char → Bool) (pd pre : List Char)
    (bodies : List (List Char)) (h1 : containsSeq JTAG pre = false)
    (h2 : ∀ b ∈ bodies, containsSeq JTAG b = false) :
    findallJ (pre ++ joinJ bodies) = modifyLast stripNL bodies ∧
    questionsOf fs pd (pre ++ joinJ bodies)
      = (modifyLast stripNL bodies).filterMap (parse_question fs pd) := by
  have e : findallJ (pre ++ joinJ bodies) = modifyLast stripNL bodies := by
    unfold findallJ
    rw [splitJ_spec bodies pre h1 h2]
  exact ⟨e, by unfold questionsOf; rw [e]⟩

/-- C5 witness: the amended theorem applied to a discardable preamble followed
by two marker-free record bodies. -/
theorem C5_split_witness :
    findallJ ("intro\n".toList ++ joinJ ["B1\n[Q]alpha\n".toList, "B2\n[Q]beta\n".toList])
      = modifyLast stripNL ["B1\n[Q]alpha\n".toList, "B2\n[Q]beta\n".toList] :=
  (C5_split_amended fs0 [] ("intro\n".toList)
    ["B1\n[Q]alpha\n".toList, "B2\n[Q]beta\n".toList] (by decide) (by decide)).1

/-- C6 counterexample: in `c6chunk` no line is of the form `[P]<rest>`, so
under the claimed line-form, first-occurrence rule the chapter value would be
absent; the source instead takes the value `7` from a mid-line `[P]`
occurrence, skipping an earlier `[P]` whose rest-of-line is empty. -/
theorem C6_field_extraction_counterexample :
    (tagSearch 'P' c6chunk).map pyStrip = some ['7'] ∧
    specLineTag 'P' c6chunk = none ∧
    (parse_question fs0 [] c6chunk).map Question.p_id = some ['7'] := by decide

/-- C6 (amended): a field tag takes its value from the first occurrence of
`[X]` that is followed by at least one non-newline character, wherever it
occurs in the chunk; the value is the run of non-newline characters after the
tag (trimmed when stored); occurrences followed directly by a newline or the
chunk end are skipped; and tag `J` never occurs inside a chunk (the splitter
consumed it), so `displayId` always keeps its empty default. -/
theorem C6_field_extraction_amended :
    (∀ (x : Char) (l : List Char), tagSearch x l = tagValueAmended x l) ∧
    (∀ (fs : List Char → Bool) (pd content : List Char) (q : Question),
      q ∈ questionsOf fs pd content → q.j_id = []) := by
  refine ⟨fun x l => tagSearch_eq_amended x l, ?_⟩
  intro fs pd content q hq
  obtain ⟨chunk, hc, hp⟩ := List.mem_filterMap.mp hq
  have hnoJ := findallJ_noJ content chunk hc
  have hnone := tagSearch_none_of_noJ chunk hnoJ
  have hj := (parse_question_some fs pd chunk q hp).2.2.1
  rw [hj]
  unfold getScalar
  rw [hnone]

/-- C6 witness: the amended theorem applied to the scenario content; the
produced Question indeed has an empty `j_id`. -/
theorem C6_field_extraction_witness :
    q1val ∈ questionsOf fs0 [] c1Content ∧ q1val.j_id = [] :=
  ⟨by decide, C6_field_extraction_amended.2 fs0 [] c1Content q1val (by decide)⟩

/-- C7 counterexample: for the non-whitespace query consisting of a space
followed by `x`, the source strips the query before matching, so a record
whose question body is `x` IS returned although `fuzzyMatch` of the unstripped
query holds for none of its fields. -/
theorem C7_keyword_counterexample :
    search_by_keyword [qX] [' ', 'x'] = [qX] ∧
    keywordPred [' ', 'x'] qX = false := by decide

/-- C7 (amended): for every query that does not strip to the empty string,
`search_by_keyword` returns exactly the records for which `fuzzyMatch` of the
STRIPPED query holds for the question body, the display id, the chapter id or
some option text, in the original record order. -/
theorem C7_keyword_amended (qs : List Question) (query : List Char)
    (h : pyStrip query ≠ []) :
    search_by_keyword qs query = qs.filter (keywordPred (pyStrip query)) := by
  have hq : query.isEmpty = false := by
    cases query with
    | nil => exact absurd rfl h
    | cons a t => rfl
  rw [search_by_keyword, if_neg (by simp [hq])]

/-- C7 witness: the amended theorem applied to a one-record list and the
query `x`. -/
theorem C7_keyword_witness :
    search_by_keyword [qX] ['x'] = List.filter (keywordPred (pyStrip ['x'])) [qX] :=
  C7_keyword_amended [qX] ['x'] (by decide)

/-- C8 counterexample: for the non-whitespace query of a space followed by
`1.2`, the source strips the query, so the record with chapter id `1.2` IS
returned although `fuzzyMatch` of the unstripped query against its chapter id
is false. -/
theorem C8_chapter_counterexample :
    search_by_chapter [mkChapterQ ("1.2".toList)] (' ' :: "1.2".toList)
      = [mkChapterQ ("1.2".toList)] ∧
    fuzzy_match (' ' :: "1.2".toList) (mkChapterQ ("1.2".toList)).p_id = false := by decide

/-- C8 (amended): for every query that does not strip to the empty string,
`search_by_chapter` returns exactly the records whose chapter id satisfies
`fuzzyMatch` with the STRIPPED query, in the original order; on the five-record
demo list the query `1.2` selects `1.2`, `1.2.3`, `1.20` and `21.2` but not
`3.4` (substring, not prefix, semantics). -/
theorem C8_chapter_amended :
    (∀ (qs : List Question) (query : List Char), pyStrip query ≠ [] →
      search_by_chapter qs query
        = qs.filter (fun q => fuzzy_match (pyStrip query) q.p_id)) ∧
    search_by_chapter chapterDemo ("1.2".toList) =
      [mkChapterQ ("1.2".toList), mkChapterQ ("1.2.3".toList),
       mkChapterQ ("1.20".toList), mkChapterQ ("21.2".toList)] := by
  constructor
  · intro qs query h
    have hq : query.isEmpty = false := by
      cases query with
      | nil => exact absurd rfl h
      | cons a t => rfl
    rw [search_by_chapter, if_neg (by simp [hq])]
  · decide

/-- C8 witness: the amended theorem applied to a one-record list and the
query `1.2`. -/
theorem C8_chapter_witness :
    search_by_chapter [mkChapterQ ("1.2".toList)] ("1.2".toList)
      = List.filter (fun q => fuzzy_match (pyStrip ("1.2".toList)) q.p_id)
          [mkChapterQ ("1.2".toList)] :=
  C8_chapter_amended.1 [mkChapterQ ("1.2".toList)] ("1.2".toList) (by decide)

/-- C9: image resolution returns the first existing path among the candidate
list (the joined raw name, then the base name with each of the six extensions
in the fixed source order) and `none` when no candidate exists; whether a
Question is produced depends only on the `Q` field, never on image resolution;
and on the concrete `img1.bmp` scenario with no files present the Question is
produced with `imagePath` unset. -/
theorem C9_image_resolution_confirmed :
    (∀ (fs : List Char → Bool) (photo_dir fname : List Char),
      imgResolve fs photo_dir fname = (imgCandidates photo_dir fname).find? fs) ∧
    (∀ (fs : List Char → Bool) (photo_dir text : List Char),
      (parse_question fs photo_dir text).isSome = !(getScalar 'Q' text).isEmpty) ∧
    (parse_question fs0 ("media".toList) c9chunk).map Question.image_path
      = some none := by
  refine ⟨fun fs pd fname => ?_, fun fs pd text => ?_, by decide⟩
  · simp only [imgResolve, imgCandidates]
    cases hc : fs (pathJoin pd fname) with
    | true => rw [List.find?_cons_of_pos _ hc]; simp [hc]
    | false =>
        rw [List.find?_cons_of_neg _ (by simp [hc])]
        cases hf : (extList.map fun e => pathJoin pd (splitextRoot fname ++ e)).find? fs with
        | none => simp [hf, hc]
        | some v =>
            have hv : fs v = true := List.find?_some hf
            simp [hf, hv]
  · simp only [parse_question]
    cases hq : (getScalar 'Q' text).isEmpty with
    | true => simp [hq]
    | false => simp [hq]

/-- C10: every Question produced by `load` has a non-empty question body and
option keys drawn from `{A,B,C,D}`; dropping a chunk whose parse yields no
Question leaves the parses of the other chunks untouched; and a chunk whose
`Q` field is absent or blank parses to no Question. -/
theorem C10_discard_invariants_confirmed :
    (∀ (fs : List Char → Bool) (pd content : List Char) (q : Question),
      q ∈ questionsOf fs pd content →
        q.question ≠ [] ∧ ∀ p ∈ q.options, p.1 ∈ (['A', 'B', 'C', 'D'] : List Char)) ∧
    (∀ (fs : List Char → Bool) (pd c : List Char) (chs1 chs2 : List (List Char)),
      parse_question fs pd c = none →
        (chs1 ++ c :: chs2).filterMap (parse_question fs pd)
          = (chs1 ++ chs2).filterMap (parse_question fs pd)) ∧
    (∀ (fs : List Char → Bool) (pd text : List Char),
      getScalar 'Q' text = [] → parse_question fs pd text = none) := by
  refine ⟨?_, ?_, ?_⟩
  · intro fs pd content q hq
    obtain ⟨chunk, _, hp⟩ := List.mem_filterMap.mp hq
    obtain ⟨hqq, hne, _, hopts⟩ := parse_question_some fs pd chunk q hp
    constructor
    · intro hnil
      rw [hqq] at hnil
      rw [hnil] at hne
      exact absurd hne (by decide)
    · intro p hp2
      rw [hopts] at hp2
      obtain ⟨o, ho, hmap⟩ := List.mem_filterMap.mp hp2
      cases ht : tagSearch o chunk with
      | none => rw [ht] at hmap; cases hmap
      | some v =>
          rw [ht] at hmap
          injection hmap with hmap
          rw [← hmap]
          exact ho
  · intro fs pd c chs1 chs2 h
    rw [List.filterMap_append, List.filterMap_append]
    congr 1
    exact List.filterMap_cons_none h
  · intro fs pd text h
    simp only [parse_question]
    rw [h]
    rfl

/-- C10 witness: the invariants applied to the Question parsed from the
scenario content. -/
theorem C10_discard_invariants_witness :
    q1val.question ≠ [] ∧ ∀ p ∈ q1val.options, p.1 ∈ (['A', 'B', 'C', 'D'] : List Char) :=
  C10_discard_invariants_confirmed.1 fs0 [] c1Content q1val (by decide)
